import Mathlib

/-!
Verification of the shard/replica lifecycle manager of `src/controller.py`
(class `ShardHandler`).

Shallow embedding conventions:

* Python `str` values (file contents, file names, dict keys) are `Str := List Char`.
* The process state is `PyState`: the in-memory `self.mapping` (a Python dict,
  modelled as an insertion-ordered association list), the `data/` directory
  (`none` while the directory does not exist, otherwise an insertion-ordered
  association list file-name ↦ contents), and the persisted `mapping.json`
  (`diskMap`).
* Python exceptions are the `PyErr` error values of `Except PyErr _`.
  A Python method that returns normally yields `.ok`; an uncaught exception
  yields `.error`.  `remove_shard` catches `ZeroDivisionError` exactly as the
  source does.
* `divmod` is floor division: `Int.fdiv` / `Int.fmod`, which agree with
  Python's semantics on all integers.
-/

namespace ShardCtl

/-- Python `str`, as a list of characters. -/
abbrev Str := List Char

/-- The character of a decimal digit `d` (`0 ≤ d ≤ 9`). -/
def digitChar (d : Nat) : Char := Char.ofNat (48 + d)

/-- Auxiliary decimal printer; the first argument is fuel (any bound on the
number of digits; `n` itself suffices). -/
def natToStrAux : Nat → Nat → Str
  | 0, _ => []
  | fuel + 1, n => if n = 0 then [] else natToStrAux fuel (n / 10) ++ [digitChar (n % 10)]

/-- Python `str(n)` for a non-negative integer `n`. -/
def natToStr (n : Nat) : Str := if n = 0 then ['0'] else natToStrAux n n

/-- Python `int(s)` for a canonical decimal digit string `s`. -/
def strToNat (s : Str) : Nat := s.foldl (fun acc c => acc * 10 + (c.toNat - 48)) 0

/-- Python string comparison `a < b`: lexicographic on code points,
a strict prefix is smaller. -/
def strLt : Str → Str → Bool
  | [], [] => false
  | [], _ :: _ => true
  | _ :: _, [] => false
  | c :: cs, d :: ds => c.toNat < d.toNat || (c = d && strLt cs ds)

/-- Python `max(x :: l)` for strings: fold of the two-argument max. -/
def pyMax (x : Str) (l : List Str) : Str :=
  l.foldl (fun m y => if strLt m y then y else m) x

/-- Python `c in s` for a single character `c`. -/
def strHas (c : Char) (s : Str) : Bool := s.any (fun x => x = c)

/-- Python `pat in s`: substring containment. -/
def strIn (pat : Str) : Str → Bool
  | [] => pat.isPrefixOf []
  | c :: r => pat.isPrefixOf (c :: r) || strIn pat r

/-- Scanner state for `re.findall("\-(\d+)", t)`: outside any candidate match,
just after a `'-'`, or inside a digit run (digits collected in reverse). -/
inductive FState where
  | norm
  | dash
  | num (ds : Str)

/-- One left-to-right pass implementing `re.findall("\-(\d+)", t)`:
every maximal digit run immediately preceded by `'-'`, in order. -/
def fdnGo : FState → Str → List Str
  | .norm, [] => []
  | .dash, [] => []
  | .num ds, [] => [ds.reverse]
  | .norm, c :: r => if c = '-' then fdnGo .dash r else fdnGo .norm r
  | .dash, c :: r =>
      if c.isDigit then fdnGo (.num [c]) r
      else if c = '-' then fdnGo .dash r else fdnGo .norm r
  | .num ds, c :: r =>
      if c.isDigit then fdnGo (.num (c :: ds)) r
      else if c = '-' then ds.reverse :: fdnGo .dash r else ds.reverse :: fdnGo .norm r

/-- `re.findall("\-(\d+)", t)` from `current_replication`. -/
def findall (t : Str) : List Str := fdnGo .norm t

/-- Python `result[-1] += t` (the empty-list case would be an `IndexError`;
it is unreachable in `_generate_sharded_data`, where `rem > 0` forces
`count > 0` and hence a non-empty `result`). -/
def appendLast (t : Str) : List Str → List Str
  | [] => []
  | [x] => [x ++ t]
  | x :: xs => x :: appendLast t xs

/-- First-match lookup in an insertion-ordered Python dict. -/
def lookupKV (k : Str) : List (Str × α) → Option α
  | [] => none
  | (k', v) :: rest => if k' = k then some v else lookupKV k rest

/-- Python `d[k] = v` / `d.update({k: v})`: replace in place if the key is
present, otherwise append at the end (insertion order). -/
def dictUpdate (k : Str) (v : α) : List (Str × α) → List (Str × α)
  | [] => [(k, v)]
  | (k', v') :: rest => if k' = k then (k, v) :: rest else (k', v') :: dictUpdate k v rest

/-- One entry of the mapping: `{'start': …, 'end': …}`.  The Python key
`end` is a reserved word in Lean, so the field is called `stop`. -/
structure MapEntry where
  start : Nat
  stop : Nat
deriving DecidableEq, Repr

/-- Python exception kinds reachable from the embedded code, together with the
named error kinds that the specification's error taxonomy demands (the source
never raises the latter; they appear so that claims about them can be stated). -/
inductive PyErr where
  | zeroDivisionError
  | valueError
  | fileNotFoundError
  | invalidArgument
  | alreadySharded
  | noShardsToRebalance
  | cannotRemoveLastShard
  | noReplicationToRemove
deriving DecidableEq, Repr

/-- Value returned by `build_shards`: `None` on the success path, or the
ad-hoc message string of the already-sharded early return. -/
inductive BuildRet where
  | noneRet
  | strRet (msg : Str)
deriving DecidableEq, Repr

/-- The early-return message of `build_shards`. -/
def cannotBuildMsg : Str := "Cannot build shard setup -- sharding already exists.".data

instance {ε α : Type} [DecidableEq ε] [DecidableEq α] : DecidableEq (Except ε α)
  | .error a, .error b =>
    match decEq a b with
    | isTrue h => isTrue (h ▸ rfl)
    | isFalse h => isFalse fun hc => h (Except.error.inj hc)
  | .error _, .ok _ => isFalse fun hc => Except.noConfusion hc
  | .ok _, .error _ => isFalse fun hc => Except.noConfusion hc
  | .ok a, .ok b =>
    match decEq a b with
    | isTrue h => isTrue (h ▸ rfl)
    | isFalse h => isFalse fun hc => h (Except.ok.inj hc)

/-- State of a `ShardHandler` process: the in-memory mapping dict, the `data/`
directory (`none` if absent) and the persisted `mapping.json` contents. -/
structure PyState where
  mapping : List (Str × MapEntry)
  dataDir : Option (List (Str × Str))
  diskMap : List (Str × MapEntry)
deriving DecidableEq, Repr

/-- `ShardHandler._generate_sharded_data(count, data)`:
`splicenum, rem = divmod(len(data), count)`, `count` contiguous slices of
length `splicenum`, the last `rem` characters appended to the final slice. -/
def _generate_sharded_data (count : Int) (data : Str) : Except PyErr (List Str) :=
  if count = 0 then .error .zeroDivisionError
  else
    let splicenum : Int := Int.fdiv data.length count
    let rem : Int := Int.fmod data.length count
    let result : List Str := (List.range count.toNat).map (fun (z : Nat) =>
      (data.take (splicenum * ((z : Int) + 1)).toNat).drop (splicenum * (z : Int)).toNat)
    let result := if 0 < rem then appendLast (data.drop (data.length - rem.toNat)) result
      else result
    .ok result

/-- The `".txt"` suffix of shard file names. -/
def txtExt : Str := ['.', 't', 'x', 't']

/-- The data file name `f"{num}.txt"` of shard `num`. -/
def fname (num : Nat) : Str := natToStr num ++ txtExt

/-- `ShardHandler._write_shard(num, data)`: create `data/` if missing, write
`data/{num}.txt`, and record `{str(num): {'start': num*len(data),
'end': (num+1)*len(data)}}` in the in-memory mapping. -/
def _write_shard (num : Nat) (data : Str) (st : PyState) : PyState :=
  { st with
    dataDir := some (dictUpdate (fname num) data (st.dataDir.getD [])),
    mapping := dictUpdate (natToStr num) ⟨num * data.length, (num + 1) * data.length⟩
      st.mapping }

/-- The loop `for num, d in enumerate(spliced_data): self._write_shard(num, d)`,
started at index `i`. -/
def writeShards (i : Nat) (pieces : List Str) (st : PyState) : PyState :=
  match pieces with
  | [] => st
  | d :: rest => writeShards (i + 1) rest (_write_shard i d st)

/-- `ShardHandler.write_map()`: persist the in-memory mapping. -/
def write_map (st : PyState) : PyState := { st with diskMap := st.mapping }

/-- `ShardHandler.build_shards(count, data)`. -/
def build_shards (count : Int) (data : Str) (st : PyState) :
    Except PyErr (BuildRet × PyState) :=
  if st.mapping = [] then
    match _generate_sharded_data count data with
    | .error e => .error e
    | .ok pieces => .ok (.noneRet, write_map (writeShards 0 pieces st))
  else .ok (.strRet cannotBuildMsg, st)

/-- Look a file up in `data/` (`none` both if the directory or the file is
missing; opening it would raise `FileNotFoundError`). -/
def fileLookup (st : PyState) (name : Str) : Option Str :=
  match st.dataDir with
  | none => none
  | some fs => lookupKV name fs

/-- The loop of `load_data_from_shards` over the mapping entries: open
`data/{db}.txt` for each key `db` in insertion order and concatenate. -/
def loadKeys (st : PyState) : List (Str × MapEntry) → Except PyErr Str
  | [] => .ok []
  | (k, _) :: rest =>
    match fileLookup st (k ++ txtExt) with
    | none => .error .fileNotFoundError
    | some c =>
      match loadKeys st rest with
      | .error e => .error e
      | .ok s => .ok (c ++ s)

/-- `ShardHandler.load_data_from_shards()`. -/
def load_data_from_shards (st : PyState) : Except PyErr Str :=
  loadKeys st st.mapping

/-- Python `max` over a `Nat` list given as head and tail. -/
def natMaxOf (k : Nat) (ks : List Nat) : Nat := ks.foldl Nat.max k

/-- `ShardHandler.add_shard()`: reload the mapping, reload the data, compute
`max(keys) + 2` as new count, re-split and rewrite.  `max` of the empty key
list raises `ValueError`. -/
def add_shard (st : PyState) : Except PyErr PyState :=
  let st := { st with mapping := st.diskMap }
  match load_data_from_shards st with
  | .error e => .error e
  | .ok data =>
    let keys := List.insertionSort (· ≤ ·) (st.mapping.map (fun p => strToNat p.1))
    match keys with
    | [] => .error .valueError
    | k :: ks =>
      let new_shard_num := natToStr (natMaxOf k ks + 2)
      match _generate_sharded_data (strToNat new_shard_num : Nat) data with
      | .error e => .error e
      | .ok pieces => .ok (write_map (writeShards 0 pieces st))

/-- `ShardHandler.remove_shard()`: reload mapping and data, compute
`max(keys)` as new count, `rmtree("./data")`, clear the mapping and rebuild,
catching `ZeroDivisionError` (the source prints the count there), then
persist the mapping.  (`rmtree` on a missing directory cannot be reached:
a non-empty mapping with a missing directory already failed in
`load_data_from_shards`, and an empty mapping fails at `max`.) -/
def remove_shard (st : PyState) : Except PyErr PyState :=
  let st := { st with mapping := st.diskMap }
  match load_data_from_shards st with
  | .error e => .error e
  | .ok data =>
    let keys := List.insertionSort (· ≤ ·) (st.mapping.map (fun p => strToNat p.1))
    match keys with
    | [] => .error .valueError
    | k :: ks =>
      let new_shard_num := natToStr (natMaxOf k ks)
      let st := { st with dataDir := none, mapping := [] }
      match build_shards (strToNat new_shard_num : Nat) data st with
      | .error .zeroDivisionError => .ok (write_map st)
      | .error e => .error e
      | .ok (_, st') => .ok (write_map st')

/-- The body of `ShardHandler.current_replication()` over the list of file
names of `data/`: `reps = ["0"]` extended with `re.findall("\-(\d+)", t)` for
every name containing `'-'`, then Python `max`. -/
def curRepStr (files : List Str) : Str :=
  pyMax ['0'] (((files.filter (fun f => strHas '-' f)).map findall).flatten)

/-- `ShardHandler.current_replication()` (lists `data/`, so it raises
`FileNotFoundError` if the directory is missing). -/
def current_replication (st : PyState) : Except PyErr Str :=
  match st.dataDir with
  | none => .error .fileNotFoundError
  | some fs => .ok (curRepStr (fs.map Prod.fst))

/-- Python `f1[:-4]` (strip the `".txt"` suffix). -/
def stripExt (f : Str) : Str := f.take (f.length - 4)

/-- `ShardHandler.add_replication()`: for every file of `data/` whose name has
no `'-'`, copy it to `f"{name[:-4]}-{next}.txt"` where
`next = int(current_replication()) + 1`; then persist the mapping. -/
def add_replication (st : PyState) : Except PyErr PyState :=
  match st.dataDir with
  | none => .error .fileNotFoundError
  | some fs =>
    let files := fs.map Prod.fst
    let highest_rep := strToNat (curRepStr files) + 1
    let fs' := files.foldl (fun acc f1 =>
      if strHas '-' f1 then acc
      else
        match lookupKV f1 acc with
        | some content =>
            dictUpdate (stripExt f1 ++ ['-'] ++ natToStr highest_rep ++ txtExt) content acc
        | none => acc) fs
    .ok (write_map { st with dataDir := some fs' })

/-- `ShardHandler.remove_replication()`: delete every file of `data/` whose
name contains `'-' + current_replication()`.  No guard, no `write_map`. -/
def remove_replication (st : PyState) : Except PyErr PyState :=
  match st.dataDir with
  | none => .error .fileNotFoundError
  | some fs =>
    let highest_rep_num := curRepStr (fs.map Prod.fst)
    .ok { st with
      dataDir := some (fs.filter (fun p => !(strIn (['-'] ++ highest_rep_num) p.1))) }

/-- The mapping built by writing shards `0, …, k-1` in order: entry `j` carries
key `str(j)` and value `g j`. -/
def canonMapF (k : Nat) (g : Nat → MapEntry) : List (Str × MapEntry) :=
  (List.range k).map (fun j => (natToStr j, g j))

/-- The mapping value `_write_shard` records for shard `j` with contents `d`. -/
def shardEntry (j : Nat) (d : Str) : MapEntry :=
  ⟨j * d.length, (j + 1) * d.length⟩

/-- The replica file name `f"{j}-{l}.txt"` of shard `j` at replication level
`l`. -/
def rname (j l : Nat) : Str := natToStr j ++ ['-'] ++ natToStr l ++ txtExt

/-- A `data/` directory holding, for every shard id `j` of `ids`, the primary
`f"{j}.txt"` with contents `contP j` and, for every replication level
`1, …, k`, the replica `f"{j}-{l}.txt"` with contents `contR j l`. -/
def mkRepStore (ids : List Nat) (k : Nat) (contP : Nat → Str) (contR : Nat → Nat → Str) :
    List (Str × Str) :=
  ids.map (fun j => (fname j, contP j)) ++
    ((List.range k).map (fun l => ids.map (fun j => (rname j (l + 1), contR j (l + 1))))).flatten

/-- Run `add_replication` `n` times. -/
def addRepN : Nat → Except PyErr PyState → Except PyErr PyState
  | 0, s => s
  | n + 1, s => addRepN n (s.bind add_replication)

/-- A concrete reachable run: a fresh handler, `build_shards(1, "ab")`, then
`n` calls of `add_replication()`. -/
def repChain (n : Nat) : Except PyErr PyState :=
  addRepN n ((build_shards 1 ['a', 'b'] ⟨[], none, []⟩).map (·.2))

/-- The numeric value of `current_replication()` after `repChain n`
(`none` if any step raised). -/
def levelAfter (n : Nat) : Option Nat :=
  match repChain n with
  | .error _ => none
  | .ok s =>
    match current_replication s with
    | .error _ => none
    | .ok r => some (strToNat r)

/-! ### Decimal strings -/

theorem digitChar_toNat {d : Nat} (h : d < 10) : (digitChar d).toNat = 48 + d := by
  interval_cases d <;> decide

theorem digitChar_injOn {d e : Nat} (hd : d < 10) (he : e < 10)
    (h : digitChar d = digitChar e) : d = e := by
  have := congrArg Char.toNat h
  rw [digitChar_toNat hd, digitChar_toNat he] at this
  omega

theorem digitChar_ne_dash {d : Nat} (h : d < 10) : digitChar d ≠ '-' := by
  intro hc
  have h1 := congrArg Char.toNat hc
  rw [digitChar_toNat h] at h1
  have h2 : ('-').toNat = 45 := by decide
  rw [h2] at h1
  omega

theorem digitChar_isDigit {d : Nat} (h : d < 10) : (digitChar d).isDigit = true := by
  interval_cases d <;> decide

theorem natToStrAux_zero (fuel : Nat) : natToStrAux fuel 0 = [] := by
  cases fuel <;> simp [natToStrAux]

theorem natToStrAux_digits :
    ∀ (fuel n : Nat), ∀ c ∈ natToStrAux fuel n, ∃ d, d < 10 ∧ c = digitChar d := by
  intro fuel
  induction fuel with
  | zero => intro n c hc; simp [natToStrAux] at hc
  | succ fuel ih =>
    intro n c hc
    by_cases hn : n = 0
    · simp [natToStrAux, hn] at hc
    · simp only [natToStrAux, hn, if_false, List.mem_append, List.mem_singleton] at hc
      rcases hc with hc | hc
      · exact ih _ c hc
      · exact ⟨n % 10, Nat.mod_lt _ (by omega), hc⟩

theorem natToStr_digits (n : Nat) : ∀ c ∈ natToStr n, ∃ d, d < 10 ∧ c = digitChar d := by
  intro c hc
  by_cases hn : n = 0
  · simp [natToStr, hn] at hc
    exact ⟨0, by omega, by rw [hc]; decide⟩
  · simp [natToStr, hn] at hc
    exact natToStrAux_digits n n c hc

theorem strToNat_append_digit (s : Str) (c : Char) :
    strToNat (s ++ [c]) = strToNat s * 10 + (c.toNat - 48) := by
  simp [strToNat, List.foldl_append]

theorem strToNat_natToStrAux : ∀ (fuel n : Nat), n ≤ fuel → strToNat (natToStrAux fuel n) = n := by
  intro fuel
  induction fuel with
  | zero => intro n hn; interval_cases n; simp [natToStrAux, strToNat]
  | succ fuel ih =>
    intro n hn
    by_cases h0 : n = 0
    · simp [natToStrAux, h0, strToNat]
    · have hdiv : n / 10 ≤ fuel := by
        have := Nat.div_lt_self (Nat.pos_of_ne_zero h0) (by omega : 1 < 10)
        omega
      simp only [natToStrAux, h0, if_false]
      rw [strToNat_append_digit, ih _ hdiv, digitChar_toNat (Nat.mod_lt _ (by omega))]
      have := Nat.div_add_mod n 10
      omega

theorem strToNat_natToStr (n : Nat) : strToNat (natToStr n) = n := by
  by_cases h0 : n = 0
  · simp [natToStr, h0]; decide
  · simp only [natToStr, h0, if_false]
    exact strToNat_natToStrAux n n le_rfl

theorem natToStr_inj {a b : Nat} (h : natToStr a = natToStr b) : a = b := by
  have := congrArg strToNat h
  rwa [strToNat_natToStr, strToNat_natToStr] at this

theorem natToStr_ne_nil (n : Nat) : natToStr n ≠ [] := by
  by_cases h0 : n = 0
  · simp [natToStr, h0]
  · simp only [natToStr, h0, if_false]
    obtain ⟨fuel, rfl⟩ : ∃ f, n = f + 1 := ⟨n - 1, by omega⟩
    simp [natToStrAux, h0]

theorem natToStr_no_dash (n : Nat) : strHas '-' (natToStr n) = false := by
  simp only [strHas, List.any_eq_false, decide_eq_true_eq]
  intro c hc
  obtain ⟨d, hd, rfl⟩ := natToStr_digits n c hc
  intro h
  exact digitChar_ne_dash hd (by rw [h])

theorem natToStr_isDigit (n : Nat) : ∀ c ∈ natToStr n, c.isDigit = true := by
  intro c hc
  obtain ⟨d, hd, rfl⟩ := natToStr_digits n c hc
  exact digitChar_isDigit hd

theorem natToStr_single : ∀ n < 10, natToStr n = [digitChar n] := by decide

/-! ### File names -/

theorem txtExt_no_dash : strHas '-' txtExt = false := by decide

theorem strHas_append (c : Char) (a b : Str) :
    strHas c (a ++ b) = (strHas c a || strHas c b) := by
  simp [strHas, List.any_append]

theorem strHas_cons (c d : Char) (s : Str) :
    strHas c (d :: s) = (decide (d = c) || strHas c s) := by
  simp [strHas]

theorem fname_no_dash (n : Nat) : strHas '-' (fname n) = false := by
  simp [fname, strHas_append, natToStr_no_dash, txtExt_no_dash]

theorem fname_inj {a b : Nat} (h : fname a = fname b) : a = b := by
  exact natToStr_inj (List.append_cancel_right (h : natToStr a ++ txtExt = natToStr b ++ txtExt))

theorem stripExt_fname (n : Nat) : stripExt (fname n) = natToStr n := by
  have : (fname n).length - 4 = (natToStr n).length := by
    simp [fname, txtExt]
  rw [stripExt, this, fname, List.take_left]

theorem rname_no_dash_parts {a b : Str} {x : Str}
    (ha : strHas '-' a = false) (hb : strHas '-' b = false)
    (h : a ++ '-' :: x = b ++ '-' :: (x' : Str)) : a = b ∧ x = x' := by
  induction a generalizing b with
  | nil =>
    cases b with
    | nil => simpa using h
    | cons d b' =>
      exfalso
      simp only [List.nil_append, List.cons_append, List.cons.injEq] at h
      rw [strHas_cons] at hb
      simp [← h.1] at hb
  | cons d a' ih =>
    cases b with
    | nil =>
      exfalso
      simp only [List.cons_append, List.nil_append, List.cons.injEq] at h
      rw [strHas_cons] at ha
      simp [h.1] at ha
    | cons e b' =>
      simp only [List.cons_append, List.cons.injEq] at h
      obtain ⟨rfl, h2⟩ := h
      rw [strHas_cons] at ha hb
      simp only [Bool.or_eq_false_iff] at ha hb
      obtain ⟨rfl, rfl⟩ := ih ha.2 hb.2 h2
      exact ⟨rfl, rfl⟩

theorem rname_inj {j l j' l' : Nat} (h : rname j l = rname j' l') : j = j' ∧ l = l' := by
  have h' : natToStr j ++ '-' :: (natToStr l ++ txtExt) =
      natToStr j' ++ '-' :: (natToStr l' ++ txtExt) := by
    simpa [rname] using h
  obtain ⟨h1, h2⟩ := rname_no_dash_parts (natToStr_no_dash j) (natToStr_no_dash j') h'
  exact ⟨natToStr_inj h1, natToStr_inj (List.append_cancel_right h2)⟩

theorem rname_has_dash (j l : Nat) : strHas '-' (rname j l) = true := by
  simp [rname, strHas_append, strHas]

theorem fname_ne_rname (n j l : Nat) : fname n ≠ rname j l := by
  intro h
  have := congrArg (strHas '-') h
  rw [fname_no_dash, rname_has_dash] at this
  exact Bool.noConfusion this

/-! ### Python dict model -/

theorem lookupKV_dictUpdate_self (k : Str) (v : α) (l : List (Str × α)) :
    lookupKV k (dictUpdate k v l) = some v := by
  induction l with
  | nil => simp [dictUpdate, lookupKV]
  | cons p rest ih =>
    obtain ⟨k', v'⟩ := p
    by_cases h : k' = k
    · simp [dictUpdate, h, lookupKV]
    · simp [dictUpdate, h, lookupKV, ih]

theorem lookupKV_dictUpdate_ne {k' k : Str} (hne : k' ≠ k) (v : α) (l : List (Str × α)) :
    lookupKV k' (dictUpdate k v l) = lookupKV k' l := by
  have hkk : ¬k = k' := fun h => hne h.symm
  induction l with
  | nil => simp [dictUpdate, lookupKV, hkk]
  | cons p rest ih =>
    obtain ⟨k'', v''⟩ := p
    by_cases h : k'' = k
    · subst h
      simp [dictUpdate, lookupKV, hkk]
    · simp only [dictUpdate, h, if_false]
      by_cases h2 : k'' = k'
      · simp [lookupKV, h2]
      · simp [lookupKV, h2, ih]

theorem lookupKV_append (k : Str) (l₁ l₂ : List (Str × α)) :
    lookupKV k (l₁ ++ l₂) =
      match lookupKV k l₁ with
      | some v => some v
      | none => lookupKV k l₂ := by
  induction l₁ with
  | nil => simp [lookupKV]
  | cons p rest ih =>
    obtain ⟨k', v⟩ := p
    by_cases h : k' = k
    · simp [lookupKV, h]
    · simp [lookupKV, h, ih]

theorem dictUpdate_not_mem {k : Str} {l : List (Str × α)} (h : k ∉ l.map Prod.fst) (v : α) :
    dictUpdate k v l = l ++ [(k, v)] := by
  induction l with
  | nil => simp [dictUpdate]
  | cons p rest ih =>
    obtain ⟨k', v'⟩ := p
    simp only [List.map_cons, List.mem_cons] at h
    push_neg at h
    simp [dictUpdate, show ¬k' = k from fun hh => h.1 hh.symm, ih h.2]

theorem dictUpdate_append_mem {k : Str} {l₁ : List (Str × α)} (h : k ∈ l₁.map Prod.fst)
    (v : α) (l₂ : List (Str × α)) :
    dictUpdate k v (l₁ ++ l₂) = dictUpdate k v l₁ ++ l₂ := by
  induction l₁ with
  | nil => simp at h
  | cons p rest ih =>
    obtain ⟨k', v'⟩ := p
    by_cases hk : k' = k
    · simp [dictUpdate, hk]
    · simp only [List.map_cons, List.mem_cons] at h
      rcases h with h | h


      · exact absurd h.symm hk
      · simp [dictUpdate, hk, ih h]

theorem dictUpdate_append_not_mem {k : Str} {l₁ : List (Str × α)} (h : k ∉ l₁.map Prod.fst)
    (v : α) (l₂ : List (Str × α)) :
    dictUpdate k v (l₁ ++ l₂) = l₁ ++ dictUpdate k v l₂ := by
  induction l₁ with
  | nil => simp
  | cons p rest ih =>
    obtain ⟨k', v'⟩ := p
    simp only [List.map_cons, List.mem_cons] at h
    push_neg at h
    simp [dictUpdate, show ¬k' = k from fun hh => h.1 hh.symm, ih h.2]

theorem dictUpdate_keys_sub {x k : Str} (v : α) (l : List (Str × α))
    (hx : x ∈ (dictUpdate k v l).map Prod.fst) : x ∈ l.map Prod.fst ∨ x = k := by
  induction l with
  | nil =>
    rw [show dictUpdate k v ([] : List (Str × α)) = [(k, v)] from rfl] at hx
    simp only [List.map_cons, List.map_nil, List.mem_singleton] at hx
    exact Or.inr hx
  | cons p rest ih =>
    obtain ⟨k', v'⟩ := p
    by_cases h : k' = k
    · have hd : dictUpdate k v ((k', v') :: rest) = (k, v) :: rest := by
        simp [dictUpdate, h]
      rw [hd] at hx
      simp only [List.map_cons, List.mem_cons] at hx
      rcases hx with hx | hx
      · exact Or.inr hx
      · rw [List.map_cons]
        exact Or.inl (List.mem_cons_of_mem _ hx)
    · have hd : dictUpdate k v ((k', v') :: rest) = (k', v') :: dictUpdate k v rest := by
        simp [dictUpdate, h]
      rw [hd] at hx
      simp only [List.map_cons, List.mem_cons] at hx
      rcases hx with hx | hx
      · subst hx
        rw [List.map_cons]
        exact Or.inl (List.mem_cons_self _ _)
      · rcases ih hx with h2 | h2
        · rw [List.map_cons]
          exact Or.inl (List.mem_cons_of_mem _ h2)
        · exact Or.inr h2

/-! ### Canonical mappings -/

theorem canonMapF_zero (g : Nat → MapEntry) : canonMapF 0 g = [] := by
  simp [canonMapF]

theorem canonMapF_succ (k : Nat) (g : Nat → MapEntry) :
    canonMapF (k + 1) g = canonMapF k g ++ [(natToStr k, g k)] := by
  simp [canonMapF, List.range_succ]

theorem canonMapF_congr {k : Nat} {g g' : Nat → MapEntry} (h : ∀ j < k, g j = g' j) :
    canonMapF k g = canonMapF k g' := by
  apply List.map_congr_left
  intro j hj
  rw [List.mem_range] at hj
  rw [h j hj]

theorem canonMapF_keys (k : Nat) (g : Nat → MapEntry) :
    (canonMapF k g).map Prod.fst = (List.range k).map natToStr := by
  simp [canonMapF, List.map_map]

theorem canonMapF_length (k : Nat) (g : Nat → MapEntry) : (canonMapF k g).length = k := by
  simp [canonMapF]

theorem mem_canon_keys {j k : Nat} (g : Nat → MapEntry) :
    natToStr j ∈ (canonMapF k g).map Prod.fst ↔ j < k := by
  rw [canonMapF_keys]
  simp only [List.mem_map, List.mem_range]
  constructor
  · rintro ⟨i, hi, hij⟩
    rwa [natToStr_inj hij] at hi
  · intro h
    exact ⟨j, h, rfl⟩

theorem dictUpdate_canon_lt {j k : Nat} (hj : j < k) (v : MapEntry) (g : Nat → MapEntry) :
    dictUpdate (natToStr j) v (canonMapF k g) =
      canonMapF k (fun t => if t = j then v else g t) := by
  induction k with
  | zero => omega
  | succ k ih =>
    rw [canonMapF_succ, canonMapF_succ]
    by_cases hjk : j < k
    · rw [dictUpdate_append_mem ((mem_canon_keys g).mpr hjk), ih hjk]
      have : k ≠ j := by omega
      simp [this]
    · have hj' : j = k := by omega
      subst hj'
      have hmem : natToStr j ∉ (canonMapF j g).map Prod.fst := by
        rw [mem_canon_keys]; omega
      rw [dictUpdate_append_not_mem hmem]
      have hupd : dictUpdate (natToStr j) v [(natToStr j, g j)] = [(natToStr j, v)] := by
        simp [dictUpdate]
      rw [hupd]
      have hcon : canonMapF j g = canonMapF j (fun t => if t = j then v else g t) := by
        apply canonMapF_congr
        intro t ht
        have : t ≠ j := by omega
        simp [this]
      rw [hcon]
      simp


theorem dictUpdate_canon_self (k : Nat) (v : MapEntry) (g : Nat → MapEntry) :
    dictUpdate (natToStr k) v (canonMapF k g) =
      canonMapF (k + 1) (fun t => if t = k then v else g t) := by
  rw [dictUpdate_not_mem (by rw [mem_canon_keys]; omega), canonMapF_succ]
  have : canonMapF k g = canonMapF k (fun t => if t = k then v else g t) := by
    apply canonMapF_congr
    intro j hj
    have : j ≠ k := by omega
    simp [this]
  rw [this]
  simp

/-! ### The shard splitter -/

theorem fdiv_natCast (m n : Nat) : Int.fdiv (m : Int) (n : Int) = ((m / n : Nat) : Int) := by
  cases m <;> cases n <;> simp [Int.fdiv]

theorem fmod_natCast (m n : Nat) : Int.fmod (m : Int) (n : Int) = ((m % n : Nat) : Int) := by
  cases m <;> cases n <;> simp [Int.fmod]

theorem toNat_mul_succ (q z : Nat) : ((q : Int) * ((z : Int) + 1)).toNat = q * (z + 1) := by
  have h : ((q : Int) * ((z : Int) + 1)) = ((q * (z + 1) : Nat) : Int) := by push_cast; ring
  rw [h, Int.toNat_natCast]

theorem toNat_mul (q z : Nat) : ((q : Int) * (z : Int)).toNat = q * z := by
  rw [← Nat.cast_mul, Int.toNat_natCast]

/-- `_generate_sharded_data` at a positive integer count, with the integer
arithmetic reduced to natural arithmetic. -/
theorem split_ofNat (c : Nat) (hc : c ≠ 0) (data : Str) :
    _generate_sharded_data (c : Int) data =
      .ok (if 0 < data.length % c
        then appendLast (data.drop (data.length - data.length % c))
          ((List.range c).map
            (fun z => (data.take (data.length / c * (z + 1))).drop (data.length / c * z)))
        else (List.range c).map
          (fun z => (data.take (data.length / c * (z + 1))).drop (data.length / c * z))) := by
  have hc' : ¬((c : Int) = 0) := by exact_mod_cast hc
  unfold _generate_sharded_data
  rw [if_neg hc']
  simp only [fdiv_natCast, fmod_natCast, toNat_mul_succ, toNat_mul, Int.toNat_natCast,
    Int.natCast_pos]

theorem appendLast_flatten (t : Str) :
    ∀ l : List Str, l ≠ [] → (appendLast t l).flatten = l.flatten ++ t := by
  intro l
  induction l with
  | nil => intro h; exact absurd rfl h
  | cons x xs ih =>
    intro _
    cases xs with
    | nil => simp [appendLast]
    | cons y ys =>
      have hne : (y :: ys : List Str) ≠ [] := by simp
      show (x :: appendLast t (y :: ys)).flatten = _
      simp only [List.flatten_cons, ih hne, List.append_assoc]

theorem appendLast_length (t : Str) :
    ∀ l : List Str, (appendLast t l).length = l.length := by
  intro l
  induction l with
  | nil => rfl
  | cons x xs ih =>
    cases xs with
    | nil => rfl
    | cons y ys =>
      show (x :: appendLast t (y :: ys)).length = _
      simp only [List.length_cons, ih]

theorem appendLast_replicate (t : Str) :
    ∀ c : Nat, 1 ≤ c →
      appendLast t (List.replicate c ([] : Str)) = List.replicate (c - 1) [] ++ [t] := by
  intro c
  induction c with
  | zero => omega
  | succ c ih =>
    intro _
    cases c with
    | zero => simp [appendLast]
    | succ c' =>
      rw [List.replicate_succ, List.replicate_succ]
      show ([] : Str) :: appendLast t ([] :: List.replicate c' []) = _
      rw [← List.replicate_succ, ih (by omega)]
      simp [List.replicate_succ]

theorem sliceJoin (data : Str) (q : Nat) :
    ∀ n, ((List.range n).map
        (fun z => (data.take (q * (z + 1))).drop (q * z))).flatten = data.take (q * n) := by
  intro n
  induction n with
  | zero => simp
  | succ n ih =>
    rw [List.range_succ, List.map_append, List.flatten_append]
    simp only [List.map_cons, List.map_nil, List.flatten_cons, List.flatten_nil,
      List.append_nil]
    rw [ih, List.drop_take]
    have h1 : q * (n + 1) - q * n = q := by ring_nf; omega
    rw [h1, show q * (n + 1) = q * n + q by ring, List.take_add]

/-- Core correctness of the splitter: for any positive count the pieces come
back without error, there are exactly `count` of them, and their
concatenation is the input. -/
theorem split_spec (c : Nat) (data : Str) (hc : 0 < c) :
    ∃ ps, _generate_sharded_data (c : Int) data = .ok ps ∧
      ps.length = c ∧ ps.flatten = data := by
  rw [split_ofNat c (by omega) data]
  have hqc : data.length / c * c + data.length % c = data.length := by
    have h0 := Nat.div_add_mod data.length c
    rw [Nat.mul_comm] at h0
    exact h0
  by_cases hr : 0 < data.length % c
  · rw [if_pos hr]
    refine ⟨_, rfl, ?_, ?_⟩
    · rw [appendLast_length]
      simp
    · have hne : ((List.range c).map
          (fun z => (data.take (data.length / c * (z + 1))).drop (data.length / c * z))) ≠ [] := by
        apply List.ne_nil_of_length_pos
        simpa using hc
      rw [appendLast_flatten _ _ hne, sliceJoin]
      have h2 : data.length / c * c = data.length - data.length % c := by omega
      rw [h2]
      exact List.take_append_drop _ _
  · rw [if_neg hr]
    refine ⟨_, rfl, ?_, ?_⟩
    · simp
    · rw [sliceJoin]
      have h2 : data.length / c * c = data.length := by omega
      rw [h2]
      exact List.take_length data

/-- The splitter at count `0`: Python's `divmod(len(data), 0)` raises
`ZeroDivisionError`. -/
theorem split_zero (data : Str) :
    _generate_sharded_data 0 data = .error .zeroDivisionError := by
  simp [_generate_sharded_data]

/-- The splitter at a negative count: `range(count)` is empty and the
remainder (which has the divisor's sign) is not positive, so the result is
the empty list of pieces. -/
theorem split_neg (c : Int) (hc : c < 0) (data : Str) :
    _generate_sharded_data c data = .ok [] := by
  unfold _generate_sharded_data
  rw [if_neg (by omega : ¬(c = 0))]
  have h1 : c.toNat = 0 := Int.toNat_of_nonpos hc.le
  rw [h1]
  simp only [List.range_zero, List.map_nil]
  simp [appendLast]

/-- The splitter at a count exceeding the data length: `splicenum = 0`, so
every slice is empty and the whole input is appended to the last piece. -/
theorem split_gt (c : Nat) (data : Str) (h : data.length < c) :
    _generate_sharded_data (c : Int) data = .ok (List.replicate (c - 1) [] ++ [data]) := by
  have hc : c ≠ 0 := by omega
  rw [split_ofNat c hc data]
  rw [Nat.div_eq_of_lt h, Nat.mod_eq_of_lt h]
  have hmap : ((List.range c).map
      (fun z => (data.take (0 * (z + 1))).drop (0 * z))) = List.replicate c [] := by
    simp
  rw [hmap]
  cases hd : data with
  | nil =>
    rw [if_neg (by simp)]
    have h1 : List.replicate c ([] : Str) = List.replicate (c - 1) [] ++ [[]] := by
      rw [← List.replicate_succ']
      congr 1
      omega
    rw [h1]
  | cons x xs =>
    have hlen : 0 < (x :: xs : Str).length := by simp
    rw [if_pos hlen]
    rw [Nat.sub_self, List.drop_zero]
    rw [appendLast_replicate (x :: xs) c (by omega)]

/-! ### Writing shards -/

theorem natMax_left {a b : Nat} (h : b ≤ a) : Nat.max a b = a := by
  show max a b = a
  omega

theorem natMax_right {a b : Nat} (h : a ≤ b) : Nat.max a b = b := by
  show max a b = b
  omega

theorem write_shard_mapping (i : Nat) (d : Str) (st : PyState) :
    (_write_shard i d st).mapping = dictUpdate (natToStr i) (shardEntry i d) st.mapping := rfl

theorem write_shard_dataDir (i : Nat) (d : Str) (st : PyState) :
    (_write_shard i d st).dataDir = some (dictUpdate (fname i) d (st.dataDir.getD [])) := rfl

theorem write_shard_diskMap (i : Nat) (d : Str) (st : PyState) :
    (_write_shard i d st).diskMap = st.diskMap := rfl

theorem writeShards_diskMap :
    ∀ (pieces : List Str) (i : Nat) (st : PyState),
      (writeShards i pieces st).diskMap = st.diskMap := by
  intro pieces
  induction pieces with
  | nil => intro i st; rfl
  | cons d rest ih =>
    intro i st
    show (writeShards (i + 1) rest (_write_shard i d st)).diskMap = _
    rw [ih, write_shard_diskMap]

/-- Effect of the write loop on the mapping: starting from the canonical
mapping of `k` shards with `i ≤ k`, the written range `[i, i+|pieces|)`
carries the fresh entries and everything else keeps its old value. -/
theorem writeShards_mapping :
    ∀ (pieces : List Str) (i k : Nat) (g : Nat → MapEntry) (st : PyState),
      st.mapping = canonMapF k g → i ≤ k →
      (writeShards i pieces st).mapping =
        canonMapF (Nat.max k (i + pieces.length))
          (fun j => if i ≤ j ∧ j < i + pieces.length
            then shardEntry j (pieces.getD (j - i) [])
            else g j) := by
  intro pieces
  induction pieces with
  | nil =>
    intro i k g st hm hik
    show st.mapping = _
    rw [hm]
    simp only [List.length_nil, Nat.add_zero]
    rw [natMax_left hik]
    apply canonMapF_congr
    intro j hj
    have hcond : ¬(i ≤ j ∧ j < i) := by omega
    rw [if_neg hcond]
  | cons d rest ih =>
    intro i k g st hm hik
    show (writeShards (i + 1) rest (_write_shard i d st)).mapping = _
    by_cases hik2 : i < k
    · have hm1 : (_write_shard i d st).mapping =
          canonMapF k (fun t => if t = i then shardEntry i d else g t) := by
        rw [write_shard_mapping, hm, dictUpdate_canon_lt hik2]
      rw [ih (i + 1) k _ _ hm1 (by omega)]
      simp only [List.length_cons]
      rw [show i + 1 + rest.length = i + (rest.length + 1) from by omega]
      apply canonMapF_congr
      intro j hj
      by_cases h1 : i + 1 ≤ j ∧ j < i + (rest.length + 1)
      · have h2 : i ≤ j ∧ j < i + (rest.length + 1) := by omega
        rw [if_pos h1, if_pos h2]
        have h3 : j - i = (j - (i + 1)) + 1 := by omega
        rw [h3, List.getD_cons_succ]
      · rw [if_neg h1]
        by_cases h4 : j = i
        · subst h4
          have h5 : j ≤ j ∧ j < j + (rest.length + 1) := by omega
          rw [if_pos rfl, if_pos h5]
          rw [show j - j = 0 from by omega, List.getD_cons_zero]
        · rw [if_neg h4]
          have h7 : ¬(i ≤ j ∧ j < i + (rest.length + 1)) := by omega
          rw [if_neg h7]
    · have hik3 : i = k := by omega
      subst hik3
      have hm1 : (_write_shard i d st).mapping =
          canonMapF (i + 1) (fun t => if t = i then shardEntry i d else g t) := by
        rw [write_shard_mapping, hm, dictUpdate_canon_self]
      rw [ih (i + 1) (i + 1) _ _ hm1 (le_refl _)]
      simp only [List.length_cons]
      rw [show i + 1 + rest.length = i + (rest.length + 1) from by omega]
      rw [natMax_right (by omega : i + 1 ≤ i + (rest.length + 1)),
        natMax_right (by omega : i ≤ i + (rest.length + 1))]
      apply canonMapF_congr
      intro j hj
      by_cases h1 : i + 1 ≤ j ∧ j < i + (rest.length + 1)
      · have h2 : i ≤ j ∧ j < i + (rest.length + 1) := by omega
        rw [if_pos h1, if_pos h2]
        have h3 : j - i = (j - (i + 1)) + 1 := by omega
        rw [h3, List.getD_cons_succ]
      · rw [if_neg h1]
        by_cases h4 : j = i
        · subst h4
          have h5 : j ≤ j ∧ j < j + (rest.length + 1) := by omega
          rw [if_pos rfl, if_pos h5]
          rw [show j - j = 0 from by omega, List.getD_cons_zero]
        · rw [if_neg h4]
          have h7 : ¬(i ≤ j ∧ j < i + (rest.length + 1)) := by omega
          rw [if_neg h7]

theorem fileLookup_write_shard_self (i : Nat) (d : Str) (st : PyState) :
    fileLookup (_write_shard i d st) (fname i) = some d := by
  simp [fileLookup, _write_shard, lookupKV_dictUpdate_self]

theorem fileLookup_write_shard_ne {name : Str} {i : Nat} (h : name ≠ fname i)
    (d : Str) (st : PyState) :
    fileLookup (_write_shard i d st) name = fileLookup st name := by
  simp only [fileLookup, _write_shard]
  cases hd : st.dataDir with
  | none =>
    simp only [hd, Option.getD_none]
    rw [lookupKV_dictUpdate_ne h]
    rfl
  | some fs =>
    simp only [hd, Option.getD_some]
    exact lookupKV_dictUpdate_ne h d fs

theorem writeShards_lookup_frame :
    ∀ (pieces : List Str) (i : Nat) (st : PyState) (name : Str),
      (∀ t, t < pieces.length → name ≠ fname (i + t)) →
      fileLookup (writeShards i pieces st) name = fileLookup st name := by
  intro pieces
  induction pieces with
  | nil => intro i st name _; rfl
  | cons d rest ih =>
    intro i st name h
    show fileLookup (writeShards (i + 1) rest (_write_shard i d st)) name = _
    rw [ih (i + 1) _ name (by
      intro t ht
      have := h (t + 1) (by simpa using Nat.succ_lt_succ ht)
      rwa [show i + (t + 1) = i + 1 + t by omega] at this)]
    exact fileLookup_write_shard_ne (by simpa using h 0 (by simp)) d st

theorem writeShards_lookup_written :
    ∀ (pieces : List Str) (t i : Nat) (st : PyState),
      t < pieces.length →
      fileLookup (writeShards i pieces st) (fname (i + t)) = some (pieces.getD t []) := by
  intro pieces
  induction pieces with
  | nil => intro t i st ht; simp at ht
  | cons d rest ih =>
    intro t i st ht
    show fileLookup (writeShards (i + 1) rest (_write_shard i d st)) _ = _
    cases t with
    | zero =>
      show fileLookup (writeShards (i + 1) rest (_write_shard i d st)) (fname i) = some d
      rw [writeShards_lookup_frame rest (i + 1) _ (fname i) (by
        intro t' ht' hcontra
        have := fname_inj hcontra
        omega)]
      exact fileLookup_write_shard_self i d st
    | succ t' =>
      rw [show i + (t' + 1) = (i + 1) + t' by omega, List.getD_cons_succ]
      exact ih t' (i + 1) _ (by simpa using Nat.lt_of_succ_lt_succ ht)

theorem writeShards_dataDir_isSome_preserve :
    ∀ (pieces : List Str) (i : Nat) (st : PyState),
      st.dataDir.isSome → (writeShards i pieces st).dataDir.isSome := by
  intro pieces
  induction pieces with
  | nil => intro i st h; exact h
  | cons d rest ih =>
    intro i st _
    show (writeShards (i + 1) rest (_write_shard i d st)).dataDir.isSome
    exact ih (i + 1) _ (by rw [write_shard_dataDir]; rfl)

theorem writeShards_dataDir_isSome (pieces : List Str) (i : Nat) (st : PyState)
    (h : pieces ≠ []) : (writeShards i pieces st).dataDir.isSome := by
  cases pieces with
  | nil => exact absurd rfl h
  | cons d rest =>
    show (writeShards (i + 1) rest (_write_shard i d st)).dataDir.isSome
    exact writeShards_dataDir_isSome_preserve rest (i + 1) _ (by rw [write_shard_dataDir]; rfl)

theorem writeShards_no_dash :
    ∀ (pieces : List Str) (i : Nat) (st : PyState),
      (∀ f ∈ (st.dataDir.getD []).map Prod.fst, strHas '-' f = false) →
      ∀ f ∈ ((writeShards i pieces st).dataDir.getD []).map Prod.fst,
        strHas '-' f = false := by
  intro pieces
  induction pieces with
  | nil => intro i st h; exact h
  | cons d rest ih =>
    intro i st h
    show ∀ f ∈ ((writeShards (i + 1) rest (_write_shard i d st)).dataDir.getD []).map Prod.fst,
      strHas '-' f = false
    apply ih
    intro f hf
    rw [write_shard_dataDir] at hf
    simp only [Option.getD_some] at hf
    rcases dictUpdate_keys_sub d _ hf with h1 | h1
    · exact h f h1
    · rw [h1]
      exact fname_no_dash i

/-! ### Loading data back -/

theorem loadKeys_congr {st₁ st₂ : PyState} (hd : st₁.dataDir = st₂.dataDir) :
    ∀ l, loadKeys st₁ l = loadKeys st₂ l := by
  intro l
  induction l with
  | nil => rfl
  | cons p rest ih =>
    obtain ⟨k, e⟩ := p
    simp [loadKeys, fileLookup, hd, ih]

theorem loadKeys_spec :
    ∀ (idxs : List Nat) (entries : List (Str × MapEntry)) (st : PyState) (cf : Nat → Str),
      entries.map Prod.fst = idxs.map natToStr →
      (∀ j ∈ idxs, fileLookup st (fname j) = some (cf j)) →
      loadKeys st entries = .ok ((idxs.map cf).flatten) := by
  intro idxs
  induction idxs with
  | nil =>
    intro entries st cf hk _
    have : entries = [] := by
      cases entries with
      | nil => rfl
      | cons p rest => simp at hk
    rw [this]
    rfl
  | cons j js ih =>
    intro entries st cf hk hl
    cases entries with
    | nil => simp at hk
    | cons p rest =>
      obtain ⟨k, e⟩ := p
      simp only [List.map_cons, List.cons.injEq] at hk
      obtain ⟨hk1, hk2⟩ := hk
      show (match fileLookup st (k ++ txtExt) with
        | none => (.error .fileNotFoundError : Except PyErr Str)
        | some c =>
          match loadKeys st rest with
          | .error e => .error e
          | .ok s => .ok (c ++ s)) = _
      rw [hk1, show natToStr j ++ txtExt = fname j from rfl,
        hl j (List.mem_cons_self _ _), ih rest st cf hk2
          (fun t ht => hl t (List.mem_cons_of_mem _ ht))]
      simp

/-! ### Maxima of key lists -/

theorem natMaxOf_eq_foldl (k : Nat) (ks : List Nat) :
    natMaxOf k ks = (k :: ks).foldl Nat.max 0 := by
  simp [natMaxOf, List.foldl_cons, Nat.zero_max]

theorem foldl_max_perm {l l' : List Nat} (p : List.Perm l l') :
    l.foldl Nat.max 0 = l'.foldl Nat.max 0 := by
  haveI : RightCommutative (Nat.max : Nat → Nat → Nat) :=
    ⟨fun a b c => Nat.max_right_comm a b c⟩
  exact p.foldl_eq 0

theorem foldl_max_range : ∀ m : Nat, (List.range (m + 1)).foldl Nat.max 0 = m := by
  intro m
  induction m with
  | zero => decide
  | succ m ih =>
    rw [List.range_succ, List.foldl_append, ih]
    simp [Nat.max_def]

/-! ### The replica-level scanner -/

theorem fdnGo_norm_append {a : Str} (ha : strHas '-' a = false) :
    ∀ b, fdnGo .norm (a ++ b) = fdnGo .norm b := by
  induction a with
  | nil => intro b; rfl
  | cons c a' ih =>
    intro b
    rw [strHas_cons] at ha
    simp only [Bool.or_eq_false_iff, decide_eq_false_iff_not] at ha
    show fdnGo .norm (c :: (a' ++ b)) = _
    rw [show fdnGo FState.norm (c :: (a' ++ b)) = fdnGo .norm (a' ++ b) from by
      simp [fdnGo, ha.1]]
    exact ih ha.2 b

theorem findall_no_dash {a : Str} (ha : strHas '-' a = false) : findall a = [] := by
  have := fdnGo_norm_append ha []
  rwa [List.append_nil] at this

theorem fdnGo_num_digits :
    ∀ (ds : Str), (∀ c ∈ ds, c.isDigit = true) →
      ∀ (acc rest : Str), fdnGo (.num acc) (ds ++ rest) = fdnGo (.num (ds.reverse ++ acc)) rest := by
  intro ds
  induction ds with
  | nil => intro _ acc rest; simp
  | cons c ds' ih =>
    intro hds acc rest
    have hc : c.isDigit = true := hds c (List.mem_cons_self _ _)
    show fdnGo (.num acc) (c :: (ds' ++ rest)) = _
    rw [show fdnGo (FState.num acc) (c :: (ds' ++ rest)) = fdnGo (.num (c :: acc)) (ds' ++ rest)
      from by simp [fdnGo, hc]]
    rw [ih (fun d hd => hds d (List.mem_cons_of_mem _ hd)) (c :: acc) rest]
    simp

theorem findall_dashname (a ds : Str) (ha : strHas '-' a = false) (hne : ds ≠ [])
    (hds : ∀ c ∈ ds, c.isDigit = true) :
    findall (a ++ ['-'] ++ ds ++ txtExt) = [ds] := by
  have h1 : a ++ ['-'] ++ ds ++ txtExt = a ++ ('-' :: (ds ++ txtExt)) := by simp
  rw [findall, h1, fdnGo_norm_append ha]
  rw [show fdnGo FState.norm ('-' :: (ds ++ txtExt)) = fdnGo .dash (ds ++ txtExt) from by
    simp [fdnGo]]
  cases ds with
  | nil => exact absurd rfl hne
  | cons c ds' =>
    have hc : c.isDigit = true := hds c (List.mem_cons_self _ _)
    show fdnGo .dash (c :: (ds' ++ txtExt)) = _
    rw [show fdnGo FState.dash (c :: (ds' ++ txtExt)) = fdnGo (.num [c]) (ds' ++ txtExt) from by
      simp [fdnGo, hc]]
    rw [fdnGo_num_digits ds' (fun d hd => hds d (List.mem_cons_of_mem _ hd)) [c] txtExt]
    show fdnGo (.num (ds'.reverse ++ [c])) ('.' :: ['t', 'x', 't']) = _
    rw [show fdnGo (FState.num (ds'.reverse ++ [c])) ('.' :: ['t', 'x', 't']) =
        (ds'.reverse ++ [c]).reverse :: fdnGo .norm ['t', 'x', 't'] from by
      simp [fdnGo]]
    rw [show fdnGo FState.norm ['t', 'x', 't'] = [] from by decide]
    simp

theorem findall_rname (j l : Nat) : findall (rname j l) = [natToStr l] :=
  findall_dashname (natToStr j) (natToStr l) (natToStr_no_dash j) (natToStr_ne_nil l)
    (natToStr_isDigit l)

/-! ### `current_replication` -/

theorem curRepStr_no_dash (files : List Str)
    (h : ∀ f ∈ files, strHas '-' f = false) : curRepStr files = ['0'] := by
  have hf : files.filter (fun f => strHas '-' f) = [] := by
    apply List.filter_eq_nil_iff.mpr
    intro a ha
    rw [h a ha]
    simp
  rw [curRepStr, hf]
  rfl

theorem strLt_digitStr : ∀ a < 10, ∀ b < 10,
    strLt (natToStr a) (natToStr b) = decide (a < b) := by decide

theorem natMaxOf_cons (a v : Nat) (vs : List Nat) :
    natMaxOf a (v :: vs) = natMaxOf (Nat.max a v) vs := rfl

theorem pyMax_digits :
    ∀ (vals : List Nat) (a : Nat), a ≤ 9 → (∀ v ∈ vals, v ≤ 9) →
      pyMax (natToStr a) (vals.map natToStr) = natToStr (natMaxOf a vals) := by
  intro vals
  induction vals with
  | nil => intro a _ _; rfl
  | cons v vs ih =>
    intro a ha hv
    have hv0 : v ≤ 9 := hv v (List.mem_cons_self _ _)
    show pyMax (if strLt (natToStr a) (natToStr v) then natToStr v else natToStr a)
        (vs.map natToStr) = _
    rw [natMaxOf_cons, strLt_digitStr a (by omega) v (by omega)]
    by_cases hav : a < v
    · rw [if_pos (by simpa using hav), show Nat.max a v = v from natMax_right (by omega)]
      exact ih v hv0 (fun t ht => hv t (List.mem_cons_of_mem _ ht))
    · rw [if_neg (by simpa using hav), show Nat.max a v = a from natMax_left (by omega)]
      exact ih a ha (fun t ht => hv t (List.mem_cons_of_mem _ ht))

theorem pyMax_append (x : Str) (a b : List Str) :
    pyMax x (a ++ b) = pyMax (pyMax x a) b := by
  simp [pyMax, List.foldl_append]

theorem natMaxOf_const {v : Nat} :
    ∀ (ids : List Nat), ids ≠ [] → ∀ a, natMaxOf a (ids.map (fun _ => v)) = Nat.max a v := by
  intro ids
  induction ids with
  | nil => intro h; exact absurd rfl h
  | cons i rest ih =>
    intro _ a
    cases rest with
    | nil => rfl
    | cons i' rest' =>
      show natMaxOf (Nat.max a v) (((i' :: rest').map (fun _ => v))) = _
      rw [ih (by simp) (Nat.max a v)]
      show max (max a v) v = max a v
      omega

theorem pyMax_const {ids : List Nat} (hne : ids ≠ []) {a v : Nat} (ha : a ≤ 9) (hv : v ≤ 9) :
    pyMax (natToStr a) (ids.map (fun _ => natToStr v)) = natToStr (Nat.max a v) := by
  have h1 : ids.map (fun _ => natToStr v) = (ids.map (fun _ => v)).map natToStr := by
    simp [List.map_map]
  rw [h1, pyMax_digits _ a ha (by
    intro t ht
    rcases List.mem_map.mp ht with ⟨_, _, rfl⟩
    omega), natMaxOf_const ids hne a]

theorem flatten_map_singleton {α β : Type} (M : List α) (h : α → β) :
    (M.map (fun x => [h x])).flatten = M.map h := by
  induction M with
  | nil => rfl
  | cons x xs ih => simp [ih]

theorem flatten_map_flatten {α : Type} (L : List (List (List α))) :
    (L.flatten).flatten = (L.map List.flatten).flatten := by
  induction L with
  | nil => rfl
  | cons x xs ih => simp [List.flatten_append, ih]

theorem pyMax_groups (ids : List Nat) (hne : ids ≠ []) :
    ∀ k, k ≤ 9 →
      pyMax (natToStr 0)
        (((List.range k).map (fun l => ids.map (fun _ => natToStr (l + 1)))).flatten) =
      natToStr k := by
  intro k
  induction k with
  | zero => intro _; rfl
  | succ k ih =>
    intro hk
    rw [List.range_succ, List.map_append, List.flatten_append, pyMax_append, ih (by omega)]
    simp only [List.map_cons, List.map_nil, List.flatten_cons, List.flatten_nil,
      List.append_nil]
    rw [pyMax_const hne (by omega) (by omega)]
    rw [natMax_right (by omega)]

/-- Decomposition of the names of a `mkRepStore` directory. -/
theorem mkRepStore_names (ids : List Nat) (k : Nat) (cP : Nat → Str) (cR : Nat → Nat → Str) :
    (mkRepStore ids k cP cR).map Prod.fst =
      ids.map fname ++
        ((List.range k).map (fun l => ids.map (fun j => rname j (l + 1)))).flatten := by
  rw [mkRepStore, List.map_append]
  congr 1
  · rw [List.map_map]
    apply List.map_congr_left
    intro j _
    rfl
  · rw [List.map_flatten, List.map_map]
    congr 1
    apply List.map_congr_left
    intro l _
    show List.map Prod.fst (List.map (fun j => (rname j (l + 1), cR j (l + 1))) ids) = _
    rw [List.map_map]
    apply List.map_congr_left
    intro j _
    rfl

/-- `current_replication` over a `mkRepStore` directory with at most 9 levels
reads back exactly the level count. -/
theorem curRepStr_mkRepStore (ids : List Nat) (k : Nat) (cP : Nat → Str)
    (cR : Nat → Nat → Str) (hne : ids ≠ []) (hk : k ≤ 9) :
    curRepStr ((mkRepStore ids k cP cR).map Prod.fst) = natToStr k := by
  rw [mkRepStore_names, curRepStr]
  have hfil : (ids.map fname ++
      ((List.range k).map (fun l => ids.map (fun j => rname j (l + 1)))).flatten).filter
        (fun f => strHas '-' f) =
      ((List.range k).map (fun l => ids.map (fun j => rname j (l + 1)))).flatten := by
    rw [List.filter_append]
    rw [List.filter_eq_nil_iff.mpr (by
      intro a ha
      rcases List.mem_map.mp ha with ⟨j, _, rfl⟩
      rw [fname_no_dash]
      simp)]
    rw [List.filter_eq_self.mpr (by
      intro a ha
      rcases List.mem_flatten.mp ha with ⟨grp, hgrp, hagrp⟩
      rcases List.mem_map.mp hgrp with ⟨l, _, rfl⟩
      rcases List.mem_map.mp hagrp with ⟨j, _, rfl⟩
      rw [rname_has_dash])]
    rfl
  rw [hfil]
  have hrw : ((((List.range k).map (fun l => ids.map (fun j => rname j (l + 1)))).flatten).map
        findall).flatten =
      ((List.range k).map (fun l => ids.map (fun _ => natToStr (l + 1)))).flatten := by
    rw [List.map_flatten, List.map_map]
    have h2 : ∀ l : Nat,
        ((fun grp => grp.map findall) ∘ fun l => ids.map (fun j => rname j (l + 1))) l =
          ids.map (fun _ => [natToStr (l + 1)]) := by
      intro l
      simp only [Function.comp, List.map_map]
      apply List.map_congr_left
      intro j _
      simp [Function.comp, findall_rname]
    rw [List.map_congr_left (fun l _ => h2 l), flatten_map_flatten, List.map_map]
    have h3 : ∀ l : Nat,
        (List.flatten ∘ fun l => ids.map (fun _ => [natToStr (l + 1)])) l =
          ids.map (fun _ => natToStr (l + 1)) := by
      intro l
      simp only [Function.comp]
      exact flatten_map_singleton ids _
    rw [List.map_congr_left (fun l _ => h3 l)]
  rw [hrw, show (['0'] : Str) = natToStr 0 from rfl]
  exact pyMax_groups ids hne k hk

/-! ### `add_replication` -/

theorem lookup_prims {cP : Nat → Str} :
    ∀ (ids : List Nat) (j : Nat), j ∈ ids →
      lookupKV (fname j) (ids.map (fun i => (fname i, cP i))) = some (cP j) := by
  intro ids
  induction ids with
  | nil => intro j hj; simp at hj
  | cons i rest ih =>
    intro j hj
    show (if fname i = fname j then some (cP i) else _) = _
    by_cases h : fname i = fname j
    · rw [if_pos h, fname_inj h]
    · rw [if_neg h]
      apply ih
      rcases List.mem_cons.mp hj with rfl | h1
      · exact absurd rfl h
      · exact h1

theorem lookup_mkRepStore_prim (ids : List Nat) (k : Nat) (cP : Nat → Str)
    (cR : Nat → Nat → Str) {j : Nat} (hj : j ∈ ids) :
    lookupKV (fname j) (mkRepStore ids k cP cR) = some (cP j) := by
  rw [mkRepStore, lookupKV_append, lookup_prims ids j hj]

theorem rname_not_mem_mkRepStore (ids : List Nat) (k : Nat) (cP : Nat → Str)
    (cR : Nat → Nat → Str) (j l : Nat) (hl : k < l) :
    rname j l ∉ (mkRepStore ids k cP cR).map Prod.fst := by
  rw [mkRepStore_names]
  intro hmem
  rcases List.mem_append.mp hmem with h1 | h1
  · rcases List.mem_map.mp h1 with ⟨i, _, heq⟩
    exact fname_ne_rname i j l heq
  · rcases List.mem_flatten.mp h1 with ⟨grp, hgrp, hin⟩
    rcases List.mem_map.mp hgrp with ⟨l', hl', rfl⟩
    rcases List.mem_map.mp hin with ⟨i, _, heq⟩
    obtain ⟨-, h2⟩ := rname_inj heq
    rw [List.mem_range] at hl'
    omega

theorem addrep_fold_prims (hi : Nat) (vl : Nat → Str) :
    ∀ (l : List Nat) (acc : List (Str × Str)),
      (∀ j ∈ l, lookupKV (fname j) acc = some (vl j)) →
      (∀ j ∈ l, rname j hi ∉ acc.map Prod.fst) →
      l.Nodup →
      List.foldl (fun acc f1 =>
        if strHas '-' f1 then acc
        else
          match lookupKV f1 acc with
          | some content =>
              dictUpdate (stripExt f1 ++ ['-'] ++ natToStr hi ++ txtExt) content acc
          | none => acc) acc (l.map fname) =
      acc ++ l.map (fun j => (rname j hi, vl j)) := by
  intro l
  induction l with
  | nil => intro acc _ _ _; simp
  | cons j rest ih =>
    intro acc hlook hfresh hnd
    rw [List.map_cons, List.foldl_cons]
    have hstep : (if strHas '-' (fname j) then acc
        else
          match lookupKV (fname j) acc with
          | some content =>
              dictUpdate (stripExt (fname j) ++ ['-'] ++ natToStr hi ++ txtExt) content acc
          | none => acc) = acc ++ [(rname j hi, vl j)] := by
      rw [if_neg (by simp [fname_no_dash])]
      rw [hlook j (List.mem_cons_self _ _)]
      show dictUpdate (stripExt (fname j) ++ ['-'] ++ natToStr hi ++ txtExt) (vl j) acc = _
      rw [stripExt_fname]
      exact dictUpdate_not_mem (hfresh j (List.mem_cons_self _ _)) (vl j)
    rw [hstep]
    have hl' : ∀ j' ∈ rest, lookupKV (fname j') (acc ++ [(rname j hi, vl j)]) = some (vl j') := by
      intro j' hj'
      rw [lookupKV_append, hlook j' (List.mem_cons_of_mem _ hj')]
    have hf' : ∀ j' ∈ rest, rname j' hi ∉ (acc ++ [(rname j hi, vl j)]).map Prod.fst := by
      intro j' hj'
      rw [List.map_append]
      intro hmem
      rcases List.mem_append.mp hmem with h1 | h1
      · exact hfresh j' (List.mem_cons_of_mem _ hj') h1
      · simp only [List.map_cons, List.map_nil, List.mem_singleton] at h1
        obtain ⟨hj'', -⟩ := rname_inj h1
        exact (List.nodup_cons.mp hnd).1 (hj'' ▸ hj')
    rw [ih (acc ++ [(rname j hi, vl j)]) hl' hf' (List.nodup_cons.mp hnd).2]
    simp

theorem addrep_fold_skip (hi : Nat) :
    ∀ (names : List Str) (acc : List (Str × Str)),
      (∀ f ∈ names, strHas '-' f = true) →
      List.foldl (fun acc f1 =>
        if strHas '-' f1 then acc
        else
          match lookupKV f1 acc with
          | some content =>
              dictUpdate (stripExt f1 ++ ['-'] ++ natToStr hi ++ txtExt) content acc
          | none => acc) acc names = acc := by
  intro names
  induction names with
  | nil => intro acc _; rfl
  | cons f fs ih =>
    intro acc h
    rw [List.foldl_cons, if_pos (h f (List.mem_cons_self _ _))]
    exact ih acc (fun f' hf' => h f' (List.mem_cons_of_mem _ hf'))

theorem mkRepStore_succ (ids : List Nat) (k : Nat) (cP : Nat → Str) (cR : Nat → Nat → Str) :
    mkRepStore ids k cP cR ++ ids.map (fun j => (rname j (k + 1), cP j)) =
      mkRepStore ids (k + 1) cP (fun j l => if l = k + 1 then cP j else cR j l) := by
  rw [mkRepStore, mkRepStore, List.range_succ, List.map_append, List.flatten_append,
    List.append_assoc]
  congr 1
  congr 1
  · congr 1
    apply List.map_congr_left
    intro l hl
    apply List.map_congr_left
    intro j _
    rw [List.mem_range] at hl
    have hne1 : l + 1 ≠ k + 1 := by omega
    simp [hne1]
  · simp only [List.map_cons, List.map_nil, List.flatten_cons, List.flatten_nil,
      List.append_nil]
    apply List.map_congr_left
    intro j _
    simp

theorem add_replication_mkRepStore (ids : List Nat) (k : Nat) (cP : Nat → Str)
    (cR : Nat → Nat → Str) (M D : List (Str × MapEntry))
    (hnd : ids.Nodup) (hne : ids ≠ []) (hk : k ≤ 8) :
    add_replication ⟨M, some (mkRepStore ids k cP cR), D⟩ =
      .ok ⟨M, some (mkRepStore ids (k + 1) cP
        (fun j l => if l = k + 1 then cP j else cR j l)), M⟩ := by
  have hcur : curRepStr ((mkRepStore ids k cP cR).map Prod.fst) = natToStr k :=
    curRepStr_mkRepStore ids k cP cR hne (by omega)
  simp only [add_replication]
  rw [hcur, strToNat_natToStr]
  rw [mkRepStore_names, List.foldl_append]
  rw [addrep_fold_prims (k + 1) cP ids (mkRepStore ids k cP cR)
    (fun j hj => lookup_mkRepStore_prim ids k cP cR hj)
    (fun j _ => rname_not_mem_mkRepStore ids k cP cR j (k + 1) (by omega))
    hnd]
  rw [addrep_fold_skip (k + 1) _ _ (by
    intro f hf
    rcases List.mem_flatten.mp hf with ⟨grp, hgrp, hfgrp⟩
    rcases List.mem_map.mp hgrp with ⟨l, _, rfl⟩
    rcases List.mem_map.mp hfgrp with ⟨i, _, rfl⟩
    exact rname_has_dash i (l + 1))]
  rw [mkRepStore_succ]
  rfl

/-! ### Assembling the shard operations -/

theorem fileLookup_write_map (st : PyState) (name : Str) :
    fileLookup (write_map st) name = fileLookup st name := rfl

theorem write_map_mapping (st : PyState) : (write_map st).mapping = st.mapping := rfl

theorem current_replication_write_map (st : PyState) :
    current_replication (write_map st) = current_replication st := rfl

theorem map_getD_range {α : Type} (l : List α) (d : α) :
    (List.range l.length).map (fun j => l.getD j d) = l := by
  induction l with
  | nil => rfl
  | cons x xs ih =>
    rw [List.length_cons, List.range_succ_eq_map, List.map_cons, List.map_map]
    rw [show ((fun j => (x :: xs).getD j d) ∘ Nat.succ) = fun j => xs.getD j d from rfl]
    rw [ih]
    rfl

theorem canonMapF_getElem (k : Nat) (g : Nat → MapEntry) (i : Nat) (hi : i < k) :
    (canonMapF k g)[i]? = some (natToStr i, g i) := by
  rw [canonMapF, List.getElem?_map, List.getElem?_range hi]
  rfl

theorem canon_strKeys (k : Nat) (g : Nat → MapEntry) :
    (canonMapF k g).map (fun p => strToNat p.1) = List.range k := by
  rw [canonMapF, List.map_map]
  have h : ∀ j ∈ List.range k,
      ((fun (p : Str × MapEntry) => strToNat p.1) ∘ fun j => (natToStr j, g j)) j = id j := by
    intro j _
    simp [Function.comp, strToNat_natToStr]
  rw [List.map_congr_left h, List.map_id]

theorem sortedKeys_max (m : Nat) (g : Nat → MapEntry) :
    ∃ k0 ks, List.insertionSort (· ≤ ·) ((canonMapF (m + 1) g).map (fun p => strToNat p.1)) =
      k0 :: ks ∧ natMaxOf k0 ks = m := by
  rw [canon_strKeys]
  have hperm := List.perm_insertionSort (· ≤ ·) (List.range (m + 1))
  have hlen : (List.insertionSort (· ≤ ·) (List.range (m + 1))).length = m + 1 := by
    rw [hperm.length_eq]
    simp
  obtain ⟨k0, ks, hck⟩ := List.exists_cons_of_ne_nil (l := List.insertionSort (· ≤ ·)
    (List.range (m + 1))) (by
      intro hnil
      rw [hnil] at hlen
      simp at hlen)
  refine ⟨k0, ks, hck, ?_⟩
  rw [natMaxOf_eq_foldl, ← hck, foldl_max_perm hperm, foldl_max_range]

theorem build_shards_ok_inv {count : Int} {data : Str} {st st' : PyState}
    (h : build_shards count data st = .ok (.noneRet, st')) :
    st.mapping = [] ∧ ∃ ps, _generate_sharded_data count data = .ok ps ∧
      st' = write_map (writeShards 0 ps st) := by
  by_cases hm : st.mapping = []
  · refine ⟨hm, ?_⟩
    rw [build_shards, if_pos hm] at h
    cases hsp : _generate_sharded_data count data with
    | error e =>
      rw [hsp] at h
      exact absurd h (by simp)
    | ok ps =>
      rw [hsp] at h
      simp only [Except.ok.injEq, Prod.mk.injEq] at h
      exact ⟨ps, rfl, h.2.symm⟩
  · rw [build_shards, if_neg hm] at h
    simp at h

/-- Building `c ≥ 1` shards from an empty mapping and then loading them back
yields the input, and the mapping gets exactly `c` entries. -/
theorem build_loads (c : Nat) (data : Str) (st : PyState) (hm : st.mapping = [])
    (hc : 0 < c) :
    ∃ st', build_shards (c : Int) data st = .ok (.noneRet, st') ∧
      load_data_from_shards st' = .ok data ∧ st'.mapping.length = c := by
  obtain ⟨ps, hps, hlen, hflat⟩ := split_spec c data hc
  have hbuild : build_shards (c : Int) data st =
      .ok (.noneRet, write_map (writeShards 0 ps st)) := by
    rw [build_shards, if_pos hm, hps]
  have hws := writeShards_mapping ps 0 0 (fun _ => ⟨0, 0⟩) st
    (by rw [hm, canonMapF_zero]) (Nat.le_refl 0)
  have hmax0 : Nat.max 0 (0 + ps.length) = ps.length := by
    show max 0 (0 + ps.length) = ps.length
    omega
  rw [hmax0] at hws
  have hmap : (write_map (writeShards 0 ps st)).mapping =
      canonMapF ps.length (fun j => if 0 ≤ j ∧ j < 0 + ps.length
        then shardEntry j (ps.getD (j - 0) []) else ⟨0, 0⟩) := by
    rw [write_map_mapping, hws]
  refine ⟨_, hbuild, ?_, ?_⟩
  · rw [load_data_from_shards, hmap]
    rw [loadKeys_spec (List.range ps.length) _ _ (fun j => ps.getD j [])
      (canonMapF_keys _ _) (by
        intro j hj
        rw [List.mem_range] at hj
        rw [fileLookup_write_map]
        have := writeShards_lookup_written ps j 0 st hj
        rwa [Nat.zero_add] at this)]
    rw [map_getD_range, hflat]
  · rw [hmap, canonMapF_length, hlen]

/-! ### Claim theorems -/

/-- C1: evaluation of `remove_shard` at a single-shard state (mapping
`{"0": {start: 0, end: 2}}`, `data/0.txt = "ab"`).  The call returns
normally (the internal `ZeroDivisionError` is caught and printed, not
converted to `CannotRemoveLastShard`), the `data/` directory is deleted and
the empty mapping is persisted: the single shard is destroyed, not left
intact. -/
theorem remove_shard_single_shard_wipes :
    remove_shard ⟨[(['0'], ⟨0, 2⟩)], some [(['0', '.', 't', 'x', 't'], ['a', 'b'])],
        [(['0'], ⟨0, 2⟩)]⟩ = .ok ⟨[], none, []⟩ ∧
    remove_shard ⟨[(['0'], ⟨0, 2⟩)], some [(['0', '.', 't', 'x', 't'], ['a', 'b'])],
        [(['0'], ⟨0, 2⟩)]⟩ ≠ .error .cannotRemoveLastShard := by decide

/-- C2: for every positive count and non-empty data, concatenating the
slices returned by `_generate_sharded_data(count, data)` in order yields
exactly the input: no byte is lost and none is duplicated. -/
theorem split_join (count : Int) (data : Str) (hc : 0 < count) (hd : data ≠ []) :
    ∃ ps, _generate_sharded_data count data = .ok ps ∧ ps.flatten = data := by
  obtain ⟨n, rfl⟩ := Int.eq_ofNat_of_zero_le hc.le
  obtain ⟨ps, h1, _, h3⟩ := split_spec n data (by exact_mod_cast hc)
  exact ⟨ps, h1, h3⟩

/-- C2 witness: the round trip at `count = 2`, `data = "abc"`. -/
theorem split_join_witness :
    (0 : Int) < 2 ∧ (['a', 'b', 'c'] : Str) ≠ [] ∧
    ∃ ps, _generate_sharded_data 2 ['a', 'b', 'c'] = .ok ps ∧
      ps.flatten = ['a', 'b', 'c'] :=
  ⟨by decide, by decide, split_join 2 ['a', 'b', 'c'] (by decide) (by decide)⟩

/-- C3: from an empty mapping, `build_shards(count, data)` followed by
`load_data_from_shards()` returns exactly the original bytes, for every
shard count from 1 to `len(data)` (the shards are read back in ascending
shard-id order and concatenated). -/
theorem build_then_load (count : Nat) (data : Str) (st : PyState)
    (hm : st.mapping = []) (h1 : 1 ≤ count) (h2 : count ≤ data.length) :
    ∃ st', build_shards (count : Int) data st = .ok (.noneRet, st') ∧
      load_data_from_shards st' = .ok data := by
  obtain ⟨st', hb, hl, _⟩ := build_loads count data st hm (by omega)
  exact ⟨st', hb, hl⟩

/-- C3 witness: `build_shards(2, "ab")` then load, from a fresh state. -/
theorem build_then_load_witness :
    (([] : List (Str × MapEntry)) = [] ∧ 1 ≤ 2 ∧ 2 ≤ (['a', 'b'] : Str).length) ∧
    ∃ st', build_shards ((2 : Nat) : Int) ['a', 'b'] ⟨[], none, []⟩ = .ok (.noneRet, st') ∧
      load_data_from_shards st' = .ok ['a', 'b'] :=
  ⟨⟨rfl, by decide, by decide⟩,
    build_then_load 2 ['a', 'b'] ⟨[], none, []⟩ rfl (by decide) (by decide)⟩

/-- C4: evaluation of `remove_replication` at a store holding only primary
files (`data/0.txt`), i.e. replication level 0.  The call returns normally
with the store unchanged — the code silently removes nothing instead of
raising the `NoReplicationToRemove` error its own docstring promises. -/
theorem remove_replication_level0_silent :
    remove_replication ⟨[], some [(['0', '.', 't', 'x', 't'], ['a', 'b'])], []⟩ =
      .ok ⟨[], some [(['0', '.', 't', 'x', 't'], ['a', 'b'])], []⟩ ∧
    remove_replication ⟨[], some [(['0', '.', 't', 'x', 't'], ['a', 'b'])], []⟩ ≠
      .error .noReplicationToRemove := by decide

/-- C6 counterexample: `build_shards` on a non-empty mapping does not fail
with a catchable `AlreadySharded` error; it returns normally with the ad-hoc
message string (and the state unchanged). -/
theorem build_shards_already_counterexample :
    build_shards 2 ['a', 'b']
        ⟨[(['0'], ⟨0, 1⟩)], some [(['0', '.', 't', 'x', 't'], ['a'])], [(['0'], ⟨0, 1⟩)]⟩ =
      .ok (.strRet cannotBuildMsg,
        ⟨[(['0'], ⟨0, 1⟩)], some [(['0', '.', 't', 'x', 't'], ['a'])], [(['0'], ⟨0, 1⟩)]⟩) ∧
    build_shards 2 ['a', 'b']
        ⟨[(['0'], ⟨0, 1⟩)], some [(['0', '.', 't', 'x', 't'], ['a'])], [(['0'], ⟨0, 1⟩)]⟩ ≠
      .error .alreadySharded := by decide

/-- C6 amended: `build_shards` on a non-empty mapping returns the ad-hoc
string "Cannot build shard setup -- sharding already exists." (not an
exception) and leaves the state — mapping, stored shard bytes, and persisted
mapping — unchanged. -/
theorem build_shards_already (count : Int) (data : Str) (st : PyState)
    (h : st.mapping ≠ []) :
    build_shards count data st = .ok (.strRet cannotBuildMsg, st) := by
  rw [build_shards, if_neg h]

/-- C6 witness: the ad-hoc string return at a concrete non-empty mapping. -/
theorem build_shards_already_witness :
    (([(['0'], ⟨0, 1⟩)] : List (Str × MapEntry)) ≠ []) ∧
    build_shards 3 ['x'] ⟨[(['0'], ⟨0, 1⟩)], none, []⟩ =
      .ok (.strRet cannotBuildMsg, ⟨[(['0'], ⟨0, 1⟩)], none, []⟩) :=
  ⟨by decide, build_shards_already 3 ['x'] ⟨[(['0'], ⟨0, 1⟩)], none, []⟩ (by decide)⟩

/-- C8 counterexample: the splitter performs no argument validation.  At
`count = 0` it fails with `ZeroDivisionError`, not `InvalidArgument`; at
`count = 3 > len("ab")` it succeeds (with empty interior shards) instead of
failing. -/
theorem split_counterexample :
    _generate_sharded_data 0 ['a', 'b'] = .error .zeroDivisionError ∧
    _generate_sharded_data 0 ['a', 'b'] ≠ .error .invalidArgument ∧
    _generate_sharded_data 3 ['a', 'b'] = .ok [[], [], ['a', 'b']] := by decide

/-- C8 amended: the splitter validates nothing.  `count = 0` surfaces the
unhandled `ZeroDivisionError` from `divmod`; `count < 0` silently returns an
empty list of pieces; `count > len(data)` succeeds, producing `count - 1`
empty shards followed by one shard holding all of `data`. -/
theorem split_no_validation :
    (∀ data : Str, _generate_sharded_data 0 data = .error .zeroDivisionError) ∧
    (∀ (c : Int) (data : Str), c < 0 → _generate_sharded_data c data = .ok []) ∧
    (∀ (c : Nat) (data : Str), data.length < c →
      _generate_sharded_data (c : Int) data = .ok (List.replicate (c - 1) [] ++ [data])) :=
  ⟨split_zero, fun c data hc => split_neg c hc data, fun c data h => split_gt c data h⟩

/-- C8 witness: the three behaviours at concrete inputs. -/
theorem split_no_validation_witness :
    _generate_sharded_data 0 ['a'] = .error .zeroDivisionError ∧
    ((-3 : Int) < 0 ∧ _generate_sharded_data (-3) ['a'] = .ok []) ∧
    ((['a', 'b'] : Str).length < 4 ∧
      _generate_sharded_data ((4 : Nat) : Int) ['a', 'b'] =
        .ok (List.replicate 3 [] ++ [['a', 'b']])) :=
  ⟨split_no_validation.1 ['a'],
    ⟨by decide, split_no_validation.2.1 (-3) ['a'] (by decide)⟩,
    ⟨by decide, split_no_validation.2.2 4 ['a', 'b'] (by decide)⟩⟩

/-- C9: after every successful `build_shards(count, data)`, the mapping entry
at index `i` is keyed `str(i)` and carries
`start = i * len(shard_i)`, `end = (i + 1) * len(shard_i)`, where
`len(shard_i)` is the length of that shard's own stored bytes — the
shard-local length convention, not cumulative logical offsets. -/
theorem mapping_entry_shard_local {count : Int} {data : Str} {st st' : PyState}
    (hb : build_shards count data st = .ok (.noneRet, st'))
    (i : Nat) (d : Str) (hf : fileLookup st' (fname i) = some d)
    (hi : i < st'.mapping.length) :
    st'.mapping[i]? = some (natToStr i, ⟨i * d.length, (i + 1) * d.length⟩) := by
  obtain ⟨hm, ps, hps, rfl⟩ := build_shards_ok_inv hb
  have hws := writeShards_mapping ps 0 0 (fun _ => ⟨0, 0⟩) st
    (by rw [hm, canonMapF_zero]) (Nat.le_refl 0)
  have hmax0 : Nat.max 0 (0 + ps.length) = ps.length := by
    show max 0 (0 + ps.length) = ps.length
    omega
  rw [hmax0] at hws
  have hmap : (write_map (writeShards 0 ps st)).mapping =
      canonMapF ps.length (fun j => if 0 ≤ j ∧ j < 0 + ps.length
        then shardEntry j (ps.getD (j - 0) []) else ⟨0, 0⟩) := by
    rw [write_map_mapping, hws]
  have hips : i < ps.length := by
    rw [hmap, canonMapF_length] at hi
    exact hi
  have hd : d = ps.getD i [] := by
    rw [fileLookup_write_map] at hf
    have := writeShards_lookup_written ps i 0 st hips
    rw [Nat.zero_add] at this
    rw [hf] at this
    exact Option.some.inj this
  rw [hmap, canonMapF_getElem _ _ i hips, if_pos (by omega)]
  rw [hd]
  rfl

/-- C9 witness: `build_shards(2, "ab")` from empty writes entry 0 with
`start = 0 * 1`, `end = 1 * 1`. -/
theorem mapping_entry_shard_local_witness :
    build_shards 2 ['a', 'b'] ⟨[], none, []⟩ =
      .ok (.noneRet, ⟨[(['0'], ⟨0, 1⟩), (['1'], ⟨1, 2⟩)],
        some [(['0', '.', 't', 'x', 't'], ['a']), (['1', '.', 't', 'x', 't'], ['b'])],
        [(['0'], ⟨0, 1⟩), (['1'], ⟨1, 2⟩)]⟩) ∧
    (⟨[(['0'], ⟨0, 1⟩), (['1'], ⟨1, 2⟩)],
        some [(['0', '.', 't', 'x', 't'], ['a']), (['1', '.', 't', 'x', 't'], ['b'])],
        [(['0'], ⟨0, 1⟩), (['1'], ⟨1, 2⟩)]⟩ : PyState).mapping[0]? =
      some (natToStr 0, ⟨0 * (['a'] : Str).length, (0 + 1) * (['a'] : Str).length⟩) :=
  ⟨by decide,
    @mapping_entry_shard_local 2 ['a', 'b'] ⟨[], none, []⟩
      ⟨[(['0'], ⟨0, 1⟩), (['1'], ⟨1, 2⟩)],
        some [(['0', '.', 't', 'x', 't'], ['a']), (['1', '.', 't', 'x', 't'], ['b'])],
        [(['0'], ⟨0, 1⟩), (['1'], ⟨1, 2⟩)]⟩
      (by decide) 0 ['a'] (by decide) (by decide)⟩

/-- C5 counterexample: a reachable run refuting "add_replication always
increments the level".  From a fresh state, `build_shards(1, "ab")` and nine
`add_replication()` calls reach level 9; the tenth call creates the level-10
replicas but `current_replication()` still answers 9, because the level is
the lexicographic string maximum and `"10" < "9"` as strings. -/
theorem add_replication_level_counterexample :
    levelAfter 9 = some 9 ∧ levelAfter 10 = some 9 := by decide

/-- C5 amended: on every shard/replica store laid out as primaries plus
uniform replica levels `1..k` (which is the shape every reachable store has),
and provided all levels stay single-digit — `k ≤ 8` before the call —
`current_replication()` reads back exactly the maximum level `k` (in
particular 0 when no replicas exist) and `add_replication()` followed by
`current_replication()` returns exactly one more than before.  (At `k = 9`
the increment property fails; see the counterexample.) -/
theorem add_replication_level (ids : List Nat) (k : Nat) (cP : Nat → Str)
    (cR : Nat → Nat → Str) (M D : List (Str × MapEntry))
    (hnd : ids.Nodup) (hne : ids ≠ []) (hk : k ≤ 8) :
    current_replication ⟨M, some (mkRepStore ids k cP cR), D⟩ = .ok (natToStr k) ∧
    ∃ st', add_replication ⟨M, some (mkRepStore ids k cP cR), D⟩ = .ok st' ∧
      current_replication st' = .ok (natToStr (k + 1)) := by
  constructor
  · simp only [current_replication]
    rw [curRepStr_mkRepStore ids k cP cR hne (by omega)]
  · refine ⟨_, add_replication_mkRepStore ids k cP cR M D hnd hne hk, ?_⟩
    simp only [current_replication]
    rw [curRepStr_mkRepStore ids (k + 1) cP _ hne (by omega)]

/-- C5 witness: one shard, no replicas yet; the level goes from 0 to 1. -/
theorem add_replication_level_witness :
    current_replication ⟨[], some (mkRepStore [0] 0 (fun _ => ['a']) (fun _ _ => ['a'])), []⟩ =
      .ok (natToStr 0) ∧
    ∃ st', add_replication
        ⟨[], some (mkRepStore [0] 0 (fun _ => ['a']) (fun _ _ => ['a'])), []⟩ = .ok st' ∧
      current_replication st' = .ok (natToStr 1) :=
  add_replication_level [0] 0 (fun _ => ['a']) (fun _ _ => ['a']) [] []
    (by decide) (by decide) (by decide)

/-- C7 counterexample: `add_shard()` on an empty mapping does not fail with
`NoShardsToRebalance`; it crashes with the unhandled `ValueError` that
Python's `max()` raises on an empty sequence. -/
theorem add_shard_empty_counterexample :
    add_shard ⟨[], some [], []⟩ = .error .valueError ∧
    add_shard ⟨[], some [], []⟩ ≠ .error .noShardsToRebalance := by decide

/-- C7 amended: for every built state with shard ids `0..m` (canonical
mapping persisted and in memory, every shard file present), `add_shard()`
succeeds, the new shard count is `max(old ids) + 2 = m + 2`, and
`load_data_from_shards()` afterwards still reconstructs exactly the bytes
that were reconstructible before the call.  On an empty mapping, however,
`add_shard()` raises an unhandled `ValueError` (from `max([])`), not a
named `NoShardsToRebalance` error. -/
theorem add_shard_spec :
    (∀ (m : Nat) (g : Nat → MapEntry) (cf : Nat → Str) (M : List (Str × MapEntry))
      (fs : List (Str × Str)),
      M = canonMapF (m + 1) g →
      (∀ j, j < m + 1 → lookupKV (fname j) fs = some (cf j)) →
      load_data_from_shards ⟨M, some fs, M⟩ = .ok ((List.range (m + 1)).map cf).flatten ∧
      ∃ st', add_shard ⟨M, some fs, M⟩ = .ok st' ∧ st'.mapping.length = m + 2 ∧
        load_data_from_shards st' = .ok ((List.range (m + 1)).map cf).flatten) ∧
    (∀ st : PyState, st.diskMap = [] → add_shard st = .error .valueError) := by
  constructor
  · intro m g cf M fs hm hfiles
    subst hm
    have hload : load_data_from_shards
        (⟨canonMapF (m + 1) g, some fs, canonMapF (m + 1) g⟩ : PyState) =
        .ok ((List.range (m + 1)).map cf).flatten := by
      rw [load_data_from_shards]
      exact loadKeys_spec (List.range (m + 1)) _ _ cf (canonMapF_keys _ _)
        (fun j hj => hfiles j (List.mem_range.mp hj))
    refine ⟨hload, ?_⟩
    obtain ⟨k0, ks, hck, hmax⟩ := sortedKeys_max m g
    obtain ⟨ps, hps, hlenp, hflat⟩ := split_spec (m + 2) ((List.range (m + 1)).map cf).flatten
      (by omega)
    simp only [add_shard, hload, hck, hmax, strToNat_natToStr, hps]
    refine ⟨_, rfl, ?_, ?_⟩
    · have hws := writeShards_mapping ps 0 (m + 1) g
        ⟨canonMapF (m + 1) g, some fs, canonMapF (m + 1) g⟩ rfl (by omega)
      have hmaxv : Nat.max (m + 1) (0 + ps.length) = m + 2 := by
        rw [hlenp]
        show max (m + 1) (0 + (m + 2)) = m + 2
        omega
      rw [hmaxv] at hws
      rw [write_map_mapping, hws, canonMapF_length]
    · have hws := writeShards_mapping ps 0 (m + 1) g
        ⟨canonMapF (m + 1) g, some fs, canonMapF (m + 1) g⟩ rfl (by omega)
      have hmaxv : Nat.max (m + 1) (0 + ps.length) = m + 2 := by
        rw [hlenp]
        show max (m + 1) (0 + (m + 2)) = m + 2
        omega
      rw [hmaxv] at hws
      rw [load_data_from_shards, write_map_mapping, hws]
      rw [loadKeys_spec (List.range (m + 2)) _ _ (fun j => ps.getD j [])
        (canonMapF_keys _ _) (by
          intro j hj
          rw [List.mem_range] at hj
          rw [fileLookup_write_map]
          have := writeShards_lookup_written ps j 0
            ⟨canonMapF (m + 1) g, some fs, canonMapF (m + 1) g⟩ (by omega)
          rwa [Nat.zero_add] at this)]
      have hgd : (List.range (m + 2)).map (fun j => ps.getD j []) = ps := by
        rw [← hlenp]
        exact map_getD_range ps []
      rw [hgd, hflat]
  · intro st hd
    simp only [add_shard, load_data_from_shards]
    rw [hd]
    rfl

/-- C7 witness: a built state with a single shard (`m = 0`); `add_shard()`
re-splits into `0 + 2 = 2` shards and the data still loads back; and the
empty-mapping case raises `ValueError`. -/
theorem add_shard_spec_witness :
    (load_data_from_shards ⟨canonMapF 1 (fun _ => ⟨0, 2⟩),
        some [(['0', '.', 't', 'x', 't'], ['a', 'b'])], canonMapF 1 (fun _ => ⟨0, 2⟩)⟩ =
      .ok ((List.range 1).map (fun _ => (['a', 'b'] : Str))).flatten ∧
    ∃ st', add_shard ⟨canonMapF 1 (fun _ => ⟨0, 2⟩),
        some [(['0', '.', 't', 'x', 't'], ['a', 'b'])], canonMapF 1 (fun _ => ⟨0, 2⟩)⟩ =
        .ok st' ∧ st'.mapping.length = 0 + 2 ∧
      load_data_from_shards st' = .ok ((List.range 1).map (fun _ => (['a', 'b'] : Str))).flatten) ∧
    add_shard ⟨[], none, []⟩ = .error .valueError :=
  ⟨add_shard_spec.1 0 (fun _ => ⟨0, 2⟩) (fun _ => ['a', 'b']) _ _ rfl (by decide),
    add_shard_spec.2 ⟨[], none, []⟩ rfl⟩

/-- C10: `remove_shard()` deletes the entire `data/` directory before
rebuilding, removing every replica file along with every primary; after any
successful `remove_shard()` (a built state with shard ids `0..m`, `m ≥ 1`,
whatever replica files also exist in `data/`), `current_replication()`
returns `"0"`. -/
theorem remove_shard_clears_replication (m : Nat) (g : Nat → MapEntry) (cf : Nat → Str)
    (M : List (Str × MapEntry)) (fs : List (Str × Str))
    (hm1 : 1 ≤ m) (hM : M = canonMapF (m + 1) g)
    (hfiles : ∀ j, j < m + 1 → lookupKV (fname j) fs = some (cf j)) :
    ∃ st', remove_shard ⟨M, some fs, M⟩ = .ok st' ∧
      current_replication st' = .ok (natToStr 0) := by
  subst hM
  have hload : load_data_from_shards
      (⟨canonMapF (m + 1) g, some fs, canonMapF (m + 1) g⟩ : PyState) =
      .ok ((List.range (m + 1)).map cf).flatten := by
    rw [load_data_from_shards]
    exact loadKeys_spec (List.range (m + 1)) _ _ cf (canonMapF_keys _ _)
      (fun j hj => hfiles j (List.mem_range.mp hj))
  obtain ⟨k0, ks, hck, hmax⟩ := sortedKeys_max m g
  obtain ⟨ps, hps, hlenp, hflat⟩ := split_spec m ((List.range (m + 1)).map cf).flatten
    (by omega)
  have hbuild : build_shards ((m : Nat) : Int) ((List.range (m + 1)).map cf).flatten
      ⟨[], none, canonMapF (m + 1) g⟩ =
      .ok (.noneRet, write_map (writeShards 0 ps ⟨[], none, canonMapF (m + 1) g⟩)) := by
    rw [build_shards, if_pos rfl, hps]
  simp only [remove_shard, hload, hck, hmax, strToNat_natToStr, hbuild]
  refine ⟨_, rfl, ?_⟩
  rw [current_replication_write_map, current_replication_write_map]
  have hdash : ∀ f ∈ ((writeShards 0 ps
      (⟨[], none, canonMapF (m + 1) g⟩ : PyState)).dataDir.getD []).map Prod.fst,
      strHas '-' f = false := by
    apply writeShards_no_dash
    intro f hf
    simp at hf
  have hsome := writeShards_dataDir_isSome ps 0 ⟨[], none, canonMapF (m + 1) g⟩ (by
    intro hnil
    rw [hnil] at hlenp
    simp at hlenp
    omega)
  obtain ⟨fs', hfs'⟩ := Option.isSome_iff_exists.mp hsome
  rw [hfs'] at hdash
  simp only [Option.getD_some] at hdash
  simp only [current_replication, hfs']
  rw [curRepStr_no_dash _ hdash]
  rfl

/-- C10 witness: two shards plus a stale replica file in `data/`;
`remove_shard` succeeds and the replication level afterwards is 0. -/
theorem remove_shard_clears_replication_witness :
    ∃ st', remove_shard ⟨canonMapF 2 (fun _ => ⟨0, 1⟩),
        some [(['0', '.', 't', 'x', 't'], ['a']), (['1', '.', 't', 'x', 't'], ['b']),
          (['0', '-', '1', '.', 't', 'x', 't'], ['a'])],
        canonMapF 2 (fun _ => ⟨0, 1⟩)⟩ = .ok st' ∧
      current_replication st' = .ok (natToStr 0) :=
  remove_shard_clears_replication 1 (fun _ => ⟨0, 1⟩)
    (fun j => if j = 0 then ['a'] else ['b']) _ _ (by decide) rfl (by decide)

end ShardCtl
